import Mathlib

/-!
Verification development for the `faster` repository.

The development shallowly embeds the task queue (src/src/queue/db.rs), the
`cancel_task` entry point (src/src/main.rs) and the intent processor
(src/src/intent/processor.rs) as executable Lean definitions, and proves the
spec's claims about them.

Modelling conventions:
* The SQLite `tasks` table is a `List Task` in rowid (insertion) order;
  SQL `UPDATE`/`DELETE`/`SELECT` statements become list traversals.
* Timestamps (`Utc::now().to_rfc3339()`) are `Nat` ticks: the code stores
  RFC 3339 text whose lexicographic order coincides with chronological order,
  so only the order matters.
* The random 8-character `nanoid` of `enqueue` and every `now` timestamp are
  environment inputs and are passed as explicit parameters.
* Rust `f32` confidence literals carry no arithmetic in the code (they are
  only stored), so they are embedded as the exact rationals they denote.
* Rust strings are `List Char`; `str::to_lowercase` is modelled on the ASCII
  range (all keywords and filler phrases in the code are ASCII).
-/

namespace Faster

/-- Strings of the embedded program, as lists of characters. -/
abbrev Str := List Char

/-- `TaskStatus` from src/src/queue/db.rs. -/
inductive TaskStatus
  | Queued
  | Running
  | Completed
  | Failed
  | Cancelled
deriving DecidableEq, Repr

/-- `Task` from src/src/queue/db.rs: one row of the `tasks` table. -/
structure Task where
  id : String
  command : String
  status : TaskStatus
  model : Option String
  created_at : Nat
  started_at : Option Nat
  completed_at : Option Nat
  error : Option String
deriving DecidableEq, Repr

/-- The persistent store: the `tasks` table in rowid (insertion) order. -/
abbrev Store := List Task

/-- `TaskQueue::enqueue`: INSERT a fresh row with status `queued`,
`created_at = now`, and the generated id; the other columns are NULL.
The generated `nanoid` and the clock reading are parameters. -/
def enqueue (st : Store) (id command : String) (model : Option String)
    (now : Nat) : Store :=
  st ++ [{ id := id, command := command, status := TaskStatus.Queued,
           model := model, created_at := now, started_at := none,
           completed_at := none, error := none }]

/-- The row produced by `SELECT ... WHERE status = 'queued' ORDER BY
created_at ASC LIMIT 1`: the first row (in rowid order) among the queued
rows with minimal `created_at`. -/
def oldestRow : List Task → Option Task
  | [] => none
  | t :: rest =>
    match oldestRow rest with
    | none => some t
    | some b => if b.created_at < t.created_at then some b else some t

/-- `TaskQueue::dequeue`: a pure SELECT — it returns the oldest queued row
(or none) and leaves the table untouched. -/
def dequeue (st : Store) : Option Task × Store :=
  (oldestRow (st.filter (fun t => t.status = TaskStatus.Queued)), st)

/-- The column updates performed by `TaskQueue::update_status` on a matched
row: always `status`; additionally `started_at = now` for `Running` and
`completed_at = now` for `Completed`/`Failed`. -/
def applyStatus (status : TaskStatus) (now : Nat) (t : Task) : Task :=
  if status = TaskStatus.Running then
    { t with status := status, started_at := some now }
  else if status = TaskStatus.Completed ∨ status = TaskStatus.Failed then
    { t with status := status, completed_at := some now }
  else
    { t with status := status }

/-- `TaskQueue::update_status`: an UPDATE over all rows whose id matches.
The function always succeeds: an unmatched id simply updates zero rows. -/
def update_status (st : Store) (id : String) (status : TaskStatus)
    (now : Nat) : Store :=
  st.map (fun t => if t.id = id then applyStatus status now t else t)

/-- `TaskQueue::fail`: UPDATE setting `status = 'failed'`,
`completed_at = now`, `error = error` on all rows whose id matches.
Always succeeds; an unmatched id updates zero rows. -/
def fail (st : Store) (id error : String) (now : Nat) : Store :=
  st.map (fun t =>
    if t.id = id then
      { t with status := TaskStatus.Failed, completed_at := some now,
               error := some error }
    else t)

/-- `TaskQueue::get`: SELECT a row by id. -/
def get (st : Store) (id : String) : Option Task :=
  st.find? (fun t => t.id = id)

/-- `TaskQueue::clear_completed`: DELETE rows whose status is `completed`
or `cancelled`; the second component is `rows_affected()`. -/
def clear_completed (st : Store) : Store × Nat :=
  (st.filter (fun t =>
      ¬(t.status = TaskStatus.Completed ∨ t.status = TaskStatus.Cancelled)),
   st.countP (fun t =>
      t.status = TaskStatus.Completed ∨ t.status = TaskStatus.Cancelled))

/-- Outcome reported by the `cancel_task` entry point. -/
inductive CancelOutcome
  | cancelled
  | rejectedRunning
  | notFound
deriving DecidableEq, Repr

/-- `cancel_task` from src/src/main.rs: looks the task up; if it is Running
the request is rejected; otherwise (any non-Running status) the task is set
to Cancelled via `update_status`. -/
def cancel_task (st : Store) (id : String) (now : Nat) :
    CancelOutcome × Store :=
  match get st id with
  | none => (CancelOutcome.notFound, st)
  | some t =>
    if t.status = TaskStatus.Running then (CancelOutcome.rejectedRunning, st)
    else (CancelOutcome.cancelled, update_status st id TaskStatus.Cancelled now)

/-- `Intent` from src/src/intent/schema.rs. -/
inductive Intent
  | Orchestrate
  | Research
  | Code
  | Test
deriving DecidableEq, Repr

/-- `str::to_lowercase`, characterwise on the ASCII range: `Char.toLower`
maps A–Z to a–z and leaves every other character unchanged, which agrees
with Rust on ASCII text (every pattern the code matches is ASCII). -/
def toLowerStr (s : Str) : Str :=
  s.map Char.toLower

/-- `str::contains(pattern)`: substring (infix) test. -/
def containsSub (text pattern : Str) : Bool :=
  pattern <:+: text

/-- `IntentProcessor::contains_any`. -/
def contains_any (text : Str) (patterns : List Str) : Bool :=
  patterns.any (fun p => containsSub text p)

/-- Orchestrate keywords from `detect_intent`. -/
def orchestrateKeywords : List Str :=
  ["run".toList, "execute".toList, "start".toList, "launch".toList,
   "deploy".toList, "build".toList]

/-- Research keywords from `detect_intent`. -/
def researchKeywords : List Str :=
  ["find".toList, "search".toList, "look".toList, "where".toList,
   "what".toList, "show".toList, "list".toList]

/-- Test keywords from `detect_intent`. -/
def testKeywords : List Str :=
  ["test".toList, "debug".toList, "fix".toList, "check".toList,
   "verify".toList]

/-- Code keywords from `detect_intent`. -/
def codeKeywords : List Str :=
  ["create".toList, "add".toList, "write".toList, "update".toList,
   "refactor".toList, "implement".toList, "generate".toList]

/-- `IntentProcessor::detect_intent`: ordered first-match-wins keyword
search over the (lowercased) text; a match scores 0.85, the fallback is
Code at 0.60. -/
def detect_intent (text : Str) : Intent × ℚ :=
  if contains_any text orchestrateKeywords then (Intent.Orchestrate, 0.85)
  else if contains_any text researchKeywords then (Intent.Research, 0.85)
  else if contains_any text testKeywords then (Intent.Test, 0.85)
  else if contains_any text codeKeywords then (Intent.Code, 0.85)
  else (Intent.Code, 0.60)

/-- `str::split_whitespace`, accumulator holds the current word reversed. -/
def splitWsAux : Str → Str → List Str
  | [], cur => if cur.isEmpty then [] else [cur.reverse]
  | c :: rest, cur =>
    if c.isWhitespace then
      if cur.isEmpty then splitWsAux rest []
      else cur.reverse :: splitWsAux rest []
    else splitWsAux rest (c :: cur)

/-- `str::split_whitespace().collect()`. -/
def splitWs (s : Str) : List Str :=
  splitWsAux s []

/-- The indexed scan of `extract_entities` over the word list: at each
`class`/`function`/`method` word, capture the next word, skipping one
literal `for` connector. -/
def codeEntitiesAux : List Str → List Str
  | [] => []
  | w :: rest =>
    let tail := codeEntitiesAux rest
    if w = "class".toList ∨ w = "function".toList ∨ w = "method".toList then
      match rest with
      | [] => tail
      | next :: rest2 =>
        if next = "for".toList then
          match rest2 with
          | [] => tail
          | name :: _ => name :: tail
        else next :: tail
    else tail

/-- `IntentProcessor::extract_entities`, operating on the lowercased text:
filename-like words when a known extension occurs, `unit`/`integration`
literals for Test intent, and code-structure captures. -/
def extract_entities (text : Str) (intent : Intent) : List Str :=
  let fileEntities :=
    if containsSub text ".rs".toList || containsSub text ".php".toList ||
        containsSub text ".js".toList then
      (splitWs text).filter (fun w =>
        w.contains '.' && !(w.getLast? = some '.'))
    else []
  let testEntities :=
    if intent = Intent.Test then
      (if containsSub text "unit".toList then ["unit".toList] else []) ++
      (if containsSub text "integration".toList then ["integration".toList]
       else [])
    else []
  let codeEntities :=
    if containsSub text "class".toList || containsSub text "function".toList ||
        containsSub text "method".toList then
      codeEntitiesAux (splitWs text)
    else []
  fileEntities ++ testEntities ++ codeEntities

/-- `str::replace(pattern, "")` for a non-empty pattern, with fuel:
leftmost non-overlapping occurrences of `p` are removed. Fuel is an upper
bound on the length of `s`, letting the recursion be structural. -/
def removeAllAux (p : Str) : Nat → Str → Str
  | _, [] => []
  | 0, s => s
  | fuel + 1, c :: rest =>
    if p <+: c :: rest then
      removeAllAux p fuel ((c :: rest).drop p.length)
    else
      c :: removeAllAux p fuel rest

/-- `str::replace(pattern, "")`. For the empty pattern Rust returns the
string unchanged. -/
def removeAll (p s : Str) : Str :=
  if p.isEmpty then s else removeAllAux p s.length s

/-- The filler-phrase list of `clean_directive`, in source order. -/
def fillerWords : List Str :=
  ["um".toList, "uh".toList, "like".toList, "you know".toList,
   "actually".toList, "basically".toList, "just".toList, "please".toList,
   "can you".toList, "could you".toList, "i want".toList, "i need".toList]

/-- Join words with single spaces (`.join(" ")`). -/
def joinWords : List Str → Str
  | [] => []
  | [w] => w
  | w :: ws => w ++ ' ' :: joinWords ws

/-- `IntentProcessor::clean_directive`: strip each filler phrase in order
by literal substring removal, then collapse whitespace runs by splitting
into words and re-joining with single spaces. The `_intent` parameter is
unused, as in the source. -/
def clean_directive (text : Str) (_intent : Intent) : Str :=
  joinWords (splitWs (fillerWords.foldl (fun acc f => removeAll f acc) text))

/-- The context map of `build_context`; its only possible keys are
`urgency` and `scope`, modelled as two optional fields. -/
structure Context where
  urgency : Option Str
  scope : Option Str
deriving DecidableEq, Repr

/-- `IntentProcessor::build_context`. -/
def build_context (text : Str) : Context :=
  { urgency :=
      if contains_any text ["urgent".toList, "asap".toList, "quick".toList,
          "fast".toList, "now".toList] then some "high".toList else none,
    scope :=
      if contains_any text ["all".toList, "every".toList, "entire".toList,
          "whole".toList] then some "broad".toList
      else if contains_any text ["this".toList, "that".toList,
          "single".toList, "one".toList] then some "narrow".toList
      else none }

/-- `Command` from src/src/intent/schema.rs (the fields `process`
populates). -/
structure Command where
  intent : Intent
  directive : Str
  entities : List Str
  context : Context
  confidence : ℚ
  created_at : Nat
deriving DecidableEq, Repr

/-- `IntentProcessor::process`: lowercase for matching, classify, extract
entities from the lowercased text, clean the original-casing text, build
context, stamp the clock reading. The Rust function returns `Ok` on every
input — it is total, so the embedding returns `Command` directly. -/
def process (transcript : Str) (now : Nat) : Command :=
  let lower := toLowerStr transcript
  let ic := detect_intent lower
  { intent := ic.1,
    directive := clean_directive transcript ic.1,
    entities := extract_entities lower ic.1,
    context := build_context lower,
    confidence := ic.2,
    created_at := now }

/-- Error taxonomy of the spec (§7) relevant to the task store claims.
`StorageError` (storage unreachable) is an environment failure outside the
embedded state and is not modelled. -/
inductive QueueError
  | NotFound
deriving DecidableEq, Repr

/-- Contract of `update_status` as the spec words it (§4.2): fail with
`NotFound` when the id does not exist, otherwise perform the update. This
definition follows the spec, not the code; it exists to be compared with
the code's `update_status`. -/
def update_status_spec (st : Store) (id : String) (status : TaskStatus)
    (now : Nat) : Except QueueError Store :=
  if st.any (fun t => t.id = id) then
    Except.ok (update_status st id status now)
  else
    Except.error QueueError.NotFound

/-- Contract of `fail` as the spec words it (§4.2): fail with `NotFound`
when the id does not exist. Follows the spec, for comparison with the
code's `fail`. -/
def fail_spec (st : Store) (id error : String) (now : Nat) :
    Except QueueError Store :=
  if st.any (fun t => t.id = id) then
    Except.ok (fail st id error now)
  else
    Except.error QueueError.NotFound

/-- ASCII uppercase test (codepoints 65–90). -/
def isAsciiUpper (c : Char) : Bool :=
  decide (65 ≤ c.toNat ∧ c.toNat ≤ 90)

/-! Helper lemmas about the store operations. -/

theorem oldestRow_eq_none {l : List Task} : oldestRow l = none ↔ l = [] := by
  constructor
  · intro h
    cases l with
    | nil => rfl
    | cons a rest =>
      exfalso
      unfold oldestRow at h
      cases hr : oldestRow rest with
      | none => simp only [hr] at h; exact Option.noConfusion h
      | some b =>
        simp only [hr] at h
        by_cases hb : b.created_at < a.created_at
        · rw [if_pos hb] at h; exact Option.noConfusion h
        · rw [if_neg hb] at h; exact Option.noConfusion h
  · intro h; subst h; rfl

theorem oldestRow_mem : ∀ {l : List Task} {t : Task},
    oldestRow l = some t → t ∈ l := by
  intro l
  induction l with
  | nil => intro t h; exact Option.noConfusion h
  | cons a rest ih =>
    intro t h
    unfold oldestRow at h
    cases hr : oldestRow rest with
    | none =>
      simp only [hr, Option.some.injEq] at h
      exact h ▸ List.mem_cons_self a rest
    | some b =>
      simp only [hr] at h
      by_cases hb : b.created_at < a.created_at
      · rw [if_pos hb] at h
        have hbt : b = t := Option.some.inj h
        subst hbt
        exact List.mem_cons_of_mem a (ih hr)
      · rw [if_neg hb] at h
        have hat : a = t := Option.some.inj h
        subst hat
        exact List.mem_cons_self a rest

theorem oldestRow_min : ∀ {l : List Task} {t : Task},
    oldestRow l = some t → ∀ u ∈ l, t.created_at ≤ u.created_at := by
  intro l
  induction l with
  | nil => intro t h; exact Option.noConfusion h
  | cons a rest ih =>
    intro t h u hu
    unfold oldestRow at h
    cases hr : oldestRow rest with
    | none =>
      simp only [hr, Option.some.injEq] at h
      have : rest = [] := oldestRow_eq_none.mp hr
      subst this
      rcases List.mem_cons.mp hu with rfl | hu
      · exact h ▸ Nat.le_refl _
      · exact absurd hu (List.not_mem_nil u)
    | some b =>
      simp only [hr] at h
      by_cases hb : b.created_at < a.created_at
      · rw [if_pos hb] at h
        have hbt : b = t := Option.some.inj h
        subst hbt
        rcases List.mem_cons.mp hu with rfl | hu
        · exact Nat.le_of_lt hb
        · exact ih hr u hu
      · rw [if_neg hb] at h
        have hat : a = t := Option.some.inj h
        subst hat
        rcases List.mem_cons.mp hu with rfl | hu
        · exact Nat.le_refl _
        · exact Nat.le_trans (Nat.le_of_not_lt hb) (ih hr u hu)

theorem mem_of_mem_dequeued {st : Store} {t : Task}
    (h : (dequeue st).1 = some t) :
    t.status = TaskStatus.Queued ∧ t ∈ st := by
  have hm := oldestRow_mem h
  have := List.mem_filter.mp hm
  exact ⟨by simpa using this.2, this.1⟩

theorem applyStatus_Running (n : Nat) (t : Task) :
    applyStatus TaskStatus.Running n t =
      { t with status := TaskStatus.Running, started_at := some n } := rfl

theorem applyStatus_Completed (n : Nat) (t : Task) :
    applyStatus TaskStatus.Completed n t =
      { t with status := TaskStatus.Completed, completed_at := some n } := rfl

theorem applyStatus_Cancelled (n : Nat) (t : Task) :
    applyStatus TaskStatus.Cancelled n t =
      { t with status := TaskStatus.Cancelled } := rfl

theorem applyStatus_preserves_id (s : TaskStatus) (n : Nat) (t : Task) :
    (applyStatus s n t).id = t.id := by
  unfold applyStatus
  split
  · rfl
  · split
    · rfl
    · rfl

/-- C5: `dequeue` does not mutate the store — it is a pure SELECT. The
store it hands back is the input store, calling it again returns the
identical result, and a returned task is a still-Queued record of the
store. -/
theorem dequeue_is_pure_peek (st : Store) :
    (dequeue st).2 = st ∧
    dequeue ((dequeue st).2) = dequeue st ∧
    ∀ t, (dequeue st).1 = some t → t.status = TaskStatus.Queued ∧ t ∈ st :=
  ⟨rfl, rfl, fun _ h => mem_of_mem_dequeued h⟩

/-- Witness for C5 at a concrete one-task store. -/
theorem dequeue_is_pure_peek_witness :
    ({ id := "a", command := "c", status := TaskStatus.Queued, model := none,
       created_at := 0, started_at := none, completed_at := none,
       error := none } : Task).status = TaskStatus.Queued ∧
    ({ id := "a", command := "c", status := TaskStatus.Queued, model := none,
       created_at := 0, started_at := none, completed_at := none,
       error := none } : Task) ∈ enqueue [] "a" "c" none 0 :=
  (dequeue_is_pure_peek (enqueue [] "a" "c" none 0)).2.2
    { id := "a", command := "c", status := TaskStatus.Queued, model := none,
      created_at := 0, started_at := none, completed_at := none,
      error := none } (by decide)

theorem dequeue_none_iff (st : Store) :
    (dequeue st).1 = none ↔ ∀ t ∈ st, t.status ≠ TaskStatus.Queued := by
  constructor
  · intro h t ht hqt
    have hnil := List.filter_eq_nil_iff.mp (oldestRow_eq_none.mp h)
    exact (hnil t ht) (by simp [hqt])
  · intro h
    apply oldestRow_eq_none.mpr
    apply List.filter_eq_nil_iff.mpr
    intro t ht
    simpa using h t ht

/-- C4 (amended): `dequeue` returns the Queued task with the oldest
`created_at` (first in insertion order on ties) and none when no task is
Queued; in a store with no Queued task, after `enqueue(A)` then
`enqueue(B)` (distinct ids, nondecreasing clock) `dequeue` returns A, and
after A is marked Running `dequeue` returns B. -/
theorem dequeue_fifo_oldest :
    (∀ st : Store, (dequeue st).1 = none ↔
        ∀ t ∈ st, t.status ≠ TaskStatus.Queued) ∧
    (∀ (st : Store) (t : Task), (dequeue st).1 = some t →
        t.status = TaskStatus.Queued ∧ t ∈ st ∧
        ∀ u ∈ st, u.status = TaskStatus.Queued →
          t.created_at ≤ u.created_at) ∧
    (∀ (st : Store) (idA idB cA cB : String) (mA mB : Option String)
        (nA nB n3 : Nat),
        (∀ t ∈ st, t.status ≠ TaskStatus.Queued) → idA ≠ idB → nA ≤ nB →
        (dequeue (enqueue (enqueue st idA cA mA nA) idB cB mB nB)).1 =
          some { id := idA, command := cA, status := TaskStatus.Queued,
                 model := mA, created_at := nA, started_at := none,
                 completed_at := none, error := none } ∧
        (dequeue (update_status
            (enqueue (enqueue st idA cA mA nA) idB cB mB nB)
            idA TaskStatus.Running n3)).1 =
          some { id := idB, command := cB, status := TaskStatus.Queued,
                 model := mB, created_at := nB, started_at := none,
                 completed_at := none, error := none }) := by
  refine ⟨dequeue_none_iff, ?_, ?_⟩
  · intro st t h
    obtain ⟨hq, hm⟩ := mem_of_mem_dequeued h
    refine ⟨hq, hm, fun u hu huq => ?_⟩
    exact oldestRow_min h u (List.mem_filter.mpr ⟨hu, by simp [huq]⟩)
  · intro st idA idB cA cB mA mB nA nB n3 hq hid hle
    set A : Task :=
      { id := idA, command := cA, status := TaskStatus.Queued, model := mA,
        created_at := nA, started_at := none, completed_at := none,
        error := none } with hA
    set B : Task :=
      { id := idB, command := cB, status := TaskStatus.Queued, model := mB,
        created_at := nB, started_at := none, completed_at := none,
        error := none } with hB
    have henq : enqueue (enqueue st idA cA mA nA) idB cB mB nB =
        (st ++ [A]) ++ [B] := rfl
    have hstnil : ∀ (l : List Task), (∀ t ∈ l, t.status ≠ TaskStatus.Queued) →
        l.filter (fun t => t.status = TaskStatus.Queued) = [] := by
      intro l hl
      apply List.filter_eq_nil_iff.mpr
      intro t ht
      simpa using hl t ht
    constructor
    · show oldestRow (((st ++ [A]) ++ [B]).filter
        (fun t => t.status = TaskStatus.Queued)) = some A
      rw [List.filter_append, List.filter_append, hstnil st hq]
      have hfA : [A].filter (fun t => t.status = TaskStatus.Queued) = [A] := by
        simp [hA]
      have hfB : [B].filter (fun t => t.status = TaskStatus.Queued) = [B] := by
        simp [hB]
      rw [hfA, hfB]
      show oldestRow [A, B] = some A
      have : oldestRow [B] = some B := rfl
      unfold oldestRow
      rw [this]
      simp only [hA, hB]
      rw [if_neg (Nat.not_lt.mpr hle)]
    · have hupd : update_status ((st ++ [A]) ++ [B]) idA TaskStatus.Running n3 =
          (st.map (fun t => if t.id = idA
              then applyStatus TaskStatus.Running n3 t else t) ++
            [applyStatus TaskStatus.Running n3 A]) ++ [B] := by
        unfold update_status
        rw [List.map_append, List.map_append]
        congr 1
        · congr 1
          simp [hA]
        · simp [hB, Ne.symm hid]
      show oldestRow ((update_status ((st ++ [A]) ++ [B]) idA
          TaskStatus.Running n3).filter
          (fun t => t.status = TaskStatus.Queued)) = some B
      rw [hupd, List.filter_append, List.filter_append]
      have h1 : (st.map (fun t => if t.id = idA
          then applyStatus TaskStatus.Running n3 t else t)).filter
          (fun t => t.status = TaskStatus.Queued) = [] := by
        apply hstnil
        intro u hu
        obtain ⟨t0, ht0, rfl⟩ := List.mem_map.mp hu
        by_cases hc : t0.id = idA
        · rw [if_pos hc, applyStatus_Running]
          intro hcon
          exact TaskStatus.noConfusion hcon
        · rw [if_neg hc]
          exact hq t0 ht0
      have h2 : [applyStatus TaskStatus.Running n3 A].filter
          (fun t => t.status = TaskStatus.Queued) = [] := by
        rw [applyStatus_Running]
        simp
      have hfB : [B].filter (fun t => t.status = TaskStatus.Queued) = [B] := by
        simp [hB]
      rw [h1, h2, hfB]
      rfl

/-- Witness for C4 from the empty store with concrete ids and times. -/
theorem dequeue_fifo_oldest_witness :
    (dequeue (enqueue (enqueue [] "a" "cmdA" none 1) "b" "cmdB" none 2)).1 =
      some { id := "a", command := "cmdA", status := TaskStatus.Queued,
             model := none, created_at := 1, started_at := none,
             completed_at := none, error := none } ∧
    (dequeue (update_status (enqueue (enqueue [] "a" "cmdA" none 1)
        "b" "cmdB" none 2) "a" TaskStatus.Running 3)).1 =
      some { id := "b", command := "cmdB", status := TaskStatus.Queued,
             model := none, created_at := 2, started_at := none,
             completed_at := none, error := none } :=
  dequeue_fifo_oldest.2.2 [] "a" "b" "cmdA" "cmdB" none none 1 2 3
    (by decide) (by decide) (by decide)

/-- Counterexample for C4 as frozen: quantified over EVERY store, the
scenario fails — a store already holding an older Queued task `c0` makes
`dequeue` return `c0`, not the newly enqueued A. -/
theorem dequeue_fifo_oldest_counterexample :
    ((dequeue (enqueue (enqueue
        [{ id := "c0", command := "old", status := TaskStatus.Queued,
           model := none, created_at := 0, started_at := none,
           completed_at := none, error := none }]
        "a" "cmdA" none 1) "b" "cmdB" none 2)).1).map Task.id = some "c0" ∧
    ("c0" : String) ≠ "a" := by
  constructor
  · rfl
  · decide

theorem map_id_of_fixed {α : Type} (f : α → α) :
    ∀ (l : List α), (∀ a ∈ l, f a = a) → l.map f = l := by
  intro l
  induction l with
  | nil => intro _; rfl
  | cons a rest ih =>
    intro h
    rw [List.map_cons, h a (List.mem_cons_self a rest),
      ih (fun b hb => h b (List.mem_cons_of_mem a hb))]

/-- C1 (amended): on an id that no task has, `update_status` and `fail`
run an UPDATE that matches zero rows — they report success and leave the
store unchanged; the code has no `NotFound` path. -/
theorem update_status_fail_unknown_id_noop (st : Store) (id err : String)
    (status : TaskStatus) (n1 n2 : Nat) (h : ∀ t ∈ st, t.id ≠ id) :
    update_status st id status n1 = st ∧ fail st id err n2 = st := by
  constructor
  · exact map_id_of_fixed _ st (fun t ht => if_neg (h t ht))
  · exact map_id_of_fixed _ st (fun t ht => if_neg (h t ht))

/-- Witness for C1 (amended) at a one-task store and an absent id. -/
theorem update_status_fail_unknown_id_noop_witness :
    update_status (enqueue [] "a" "c" none 0) "x" TaskStatus.Running 1 =
      enqueue [] "a" "c" none 0 ∧
    fail (enqueue [] "a" "c" none 0) "x" "boom" 2 =
      enqueue [] "a" "c" none 0 :=
  update_status_fail_unknown_id_noop (enqueue [] "a" "c" none 0) "x" "boom"
    TaskStatus.Running 1 2 (by decide)

/-- Counterexample for C1 as frozen: on the empty store and the unknown id
`x`, the code's `update_status` and `fail` succeed (returning the store
unchanged — there is no error channel), whereas the spec's contract
demands a `NotFound` failure; the code does not refine the contract. -/
theorem update_status_fail_unknown_id_counterexample :
    update_status ([] : Store) "x" TaskStatus.Running 0 = [] ∧
    fail ([] : Store) "x" "boom" 0 = [] ∧
    update_status_spec [] "x" TaskStatus.Running 0 =
      Except.error QueueError.NotFound ∧
    fail_spec [] "x" "boom" 0 = Except.error QueueError.NotFound ∧
    (Except.ok (update_status ([] : Store) "x" TaskStatus.Running 0) :
        Except QueueError Store) ≠
      update_status_spec [] "x" TaskStatus.Running 0 ∧
    (Except.ok (fail ([] : Store) "x" "boom" 0) :
        Except QueueError Store) ≠
      fail_spec [] "x" "boom" 0 := by
  refine ⟨rfl, rfl, rfl, rfl, ?_, ?_⟩
  · intro h; exact Except.noConfusion h
  · intro h; exact Except.noConfusion h

theorem get_update_status (st : Store) (id : String) (s : TaskStatus)
    (n : Nat) :
    get (update_status st id s n) id = (get st id).map (applyStatus s n) := by
  induction st with
  | nil => rfl
  | cons a rest ih =>
    by_cases h : a.id = id
    · have hpos : ((applyStatus s n a).id = id) := by
        rw [applyStatus_preserves_id]; exact h
      unfold get update_status
      rw [List.map_cons, if_pos h,
        List.find?_cons_of_pos _ (by simpa using hpos),
        List.find?_cons_of_pos _ (by simpa using h)]
      rfl
    · unfold get update_status
      rw [List.map_cons, if_neg h,
        List.find?_cons_of_neg _ (by simpa using h),
        List.find?_cons_of_neg _ (by simpa using h)]
      exact ih

/-- C8 (amended): for a stored task whose `completed_at` is not yet set
(as holds for any task that has never left Queued),
`update_status(id, Running)` sets `started_at = now`, leaves
`completed_at` empty and every other field unchanged; a subsequent
`update_status(id, Completed)` sets `completed_at` and changes nothing
else — in particular `started_at` survives. -/
theorem update_running_then_completed_frame (st : Store) (id : String)
    (t : Task) (n1 n2 : Nat) (hget : get st id = some t)
    (hc : t.completed_at = none) :
    get (update_status st id TaskStatus.Running n1) id =
      some { id := t.id, command := t.command,
             status := TaskStatus.Running, model := t.model,
             created_at := t.created_at, started_at := some n1,
             completed_at := none, error := t.error } ∧
    get (update_status (update_status st id TaskStatus.Running n1) id
        TaskStatus.Completed n2) id =
      some { id := t.id, command := t.command,
             status := TaskStatus.Completed, model := t.model,
             created_at := t.created_at, started_at := some n1,
             completed_at := some n2, error := t.error } := by
  have h1 := get_update_status st id TaskStatus.Running n1
  rw [hget, Option.map_some', applyStatus_Running] at h1
  have h2 := get_update_status (update_status st id TaskStatus.Running n1)
    id TaskStatus.Completed n2
  rw [h1, Option.map_some', applyStatus_Completed] at h2
  constructor
  · rw [h1, hc]
  · rw [h2]

/-- Witness for C8 (amended) on a freshly enqueued task. -/
theorem update_running_then_completed_frame_witness :
    get (update_status (enqueue [] "a" "c" none 0) "a"
        TaskStatus.Running 1) "a" =
      some { id := "a", command := "c", status := TaskStatus.Running,
             model := none, created_at := 0, started_at := some 1,
             completed_at := none, error := none } ∧
    get (update_status (update_status (enqueue [] "a" "c" none 0) "a"
        TaskStatus.Running 1) "a" TaskStatus.Completed 2) "a" =
      some { id := "a", command := "c", status := TaskStatus.Completed,
             model := none, created_at := 0, started_at := some 1,
             completed_at := some 2, error := none } :=
  update_running_then_completed_frame (enqueue [] "a" "c" none 0) "a"
    { id := "a", command := "c", status := TaskStatus.Queued, model := none,
      created_at := 0, started_at := none, completed_at := none,
      error := none } 1 2 (by decide) rfl

/-- Counterexample for C8 as frozen: over every existing task the claim
fails — a task that already carries a `completed_at` (reachable by an
unvalidated transition to Completed) keeps it when later set Running, so
`completed_at` is not left empty. -/
theorem update_running_completed_at_counterexample :
    get (update_status (update_status (enqueue [] "a" "c" none 0) "a"
        TaskStatus.Completed 1) "a" TaskStatus.Running 2) "a" =
      some { id := "a", command := "c", status := TaskStatus.Running,
             model := none, created_at := 0, started_at := some 2,
             completed_at := some 1, error := none } ∧
    (get (update_status (update_status (enqueue [] "a" "c" none 0) "a"
        TaskStatus.Completed 1) "a" TaskStatus.Running 2) "a").map
      Task.completed_at = some (some 1) ∧
    some 1 ≠ (none : Option Nat) := by
  refine ⟨rfl, rfl, ?_⟩
  intro h
  exact Option.noConfusion h

/-- C2 (amended): `cancel_task` rejects the request, leaving the store
untouched, exactly when the task is Running; a task in any other status —
Queued, but also the terminal Completed, Failed and Cancelled — is
transitioned to Cancelled. -/
theorem cancel_only_rejects_running (st : Store) (id : String) (t : Task)
    (now : Nat) (hget : get st id = some t) :
    (t.status = TaskStatus.Running →
        cancel_task st id now = (CancelOutcome.rejectedRunning, st)) ∧
    (t.status ≠ TaskStatus.Running →
        (cancel_task st id now).1 = CancelOutcome.cancelled ∧
        get (cancel_task st id now).2 id =
          some { t with status := TaskStatus.Cancelled }) := by
  constructor
  · intro h
    unfold cancel_task
    rw [hget]
    simp only [h, if_true]
  · intro h
    have hc : cancel_task st id now =
        (CancelOutcome.cancelled, update_status st id TaskStatus.Cancelled now) := by
      unfold cancel_task
      rw [hget]
      simp only [h, if_false, if_neg h]
    refine ⟨by rw [hc], ?_⟩
    rw [hc]
    have h1 := get_update_status st id TaskStatus.Cancelled now
    rw [hget, Option.map_some', applyStatus_Cancelled] at h1
    exact h1

/-- Witness for C2 (amended) on a Queued task: cancellation goes through. -/
theorem cancel_only_rejects_running_witness :
    (cancel_task (enqueue [] "q" "c" none 0) "q" 5).1 =
      CancelOutcome.cancelled ∧
    get (cancel_task (enqueue [] "q" "c" none 0) "q" 5).2 "q" =
      some { id := "q", command := "c", status := TaskStatus.Cancelled,
             model := none, created_at := 0, started_at := none,
             completed_at := none, error := none } :=
  (cancel_only_rejects_running (enqueue [] "q" "c" none 0) "q"
    { id := "q", command := "c", status := TaskStatus.Queued, model := none,
      created_at := 0, started_at := none, completed_at := none,
      error := none } 5 (by decide)).2 (by decide)

/-- Counterexample for C2 as frozen: a Completed (terminal) task is not
rejected — `cancel_task` reports success and overwrites its status with
Cancelled, so a non-Queued, non-Running task is not left unchanged. -/
theorem cancel_terminal_task_counterexample :
    (cancel_task
      [{ id := "t1", command := "c", status := TaskStatus.Completed,
         model := none, created_at := 0, started_at := none,
         completed_at := some 1, error := none }] "t1" 5).1 =
      CancelOutcome.cancelled ∧
    get (cancel_task
      [{ id := "t1", command := "c", status := TaskStatus.Completed,
         model := none, created_at := 0, started_at := none,
         completed_at := some 1, error := none }] "t1" 5).2 "t1" =
      some { id := "t1", command := "c", status := TaskStatus.Cancelled,
             model := none, created_at := 0, started_at := none,
             completed_at := some 1, error := none } ∧
    TaskStatus.Cancelled ≠ TaskStatus.Completed := by
  refine ⟨rfl, rfl, ?_⟩
  intro h
  exact TaskStatus.noConfusion h

theorem length_filter_not_add_countP {α : Type} (X : α → Prop)
    [DecidablePred X] (l : List α) :
    (l.filter (fun a => decide (¬ X a))).length +
      l.countP (fun a => decide (X a)) = l.length := by
  induction l with
  | nil => rfl
  | cons a rest ih =>
    by_cases h : X a
    · have hd1 : (decide (¬ X a)) = false := by simp [h]
      have hd2 : (decide (X a)) = true := by simp [h]
      rw [List.filter_cons, List.countP_cons, hd1, hd2]
      simp only [Bool.false_eq_true, if_false, if_true, List.length_cons]
      omega
    · have hd1 : (decide (¬ X a)) = true := by simp [h]
      have hd2 : (decide (X a)) = false := by simp [h]
      rw [List.filter_cons, List.countP_cons, hd1, hd2]
      simp only [if_true, Bool.false_eq_true, if_false, List.length_cons]
      omega

/-- C9: `clear_completed` deletes exactly the Completed and Cancelled
tasks — never a Failed one — keeps every Queued, Running and Failed task
(in order, unmodified: the survivors form a sublist of the original
store), and reports the number of removed rows. -/
theorem clear_completed_exact (st : Store) :
    List.Sublist (clear_completed st).1 st ∧
    (∀ t ∈ st, (t.status = TaskStatus.Completed ∨
        t.status = TaskStatus.Cancelled) → ¬ t ∈ (clear_completed st).1) ∧
    (∀ t ∈ st, (t.status = TaskStatus.Queued ∨
        t.status = TaskStatus.Running ∨ t.status = TaskStatus.Failed) →
        t ∈ (clear_completed st).1) ∧
    (∀ t ∈ (clear_completed st).1, t ∈ st ∧
        t.status ≠ TaskStatus.Completed ∧
        t.status ≠ TaskStatus.Cancelled) ∧
    (clear_completed st).1.length + (clear_completed st).2 = st.length := by
  refine ⟨List.filter_sublist st, ?_, ?_, ?_, ?_⟩
  · intro t _ hcc hmem
    have := (List.mem_filter.mp hmem).2
    simp only [decide_eq_true_eq] at this
    exact this hcc
  · intro t ht h3
    apply List.mem_filter.mpr
    refine ⟨ht, ?_⟩
    simp only [decide_eq_true_eq]
    intro hcc
    rcases h3 with h | h | h <;> rcases hcc with hc | hc <;>
      (rw [h] at hc; exact TaskStatus.noConfusion hc)
  · intro t hmem
    have hm := List.mem_filter.mp hmem
    have h2 := hm.2
    simp only [decide_eq_true_eq] at h2
    push_neg at h2
    exact ⟨hm.1, h2.1, h2.2⟩
  · exact length_filter_not_add_countP
      (fun t => t.status = TaskStatus.Completed ∨
        t.status = TaskStatus.Cancelled) st

/-- Witness for C9 on a two-task store: the Completed task is removed,
the Queued one survives. -/
theorem clear_completed_exact_witness :
    ¬ ({ id := "c1", command := "x", status := TaskStatus.Completed,
         model := none, created_at := 0, started_at := none,
         completed_at := some 1, error := none : Task } ∈
      (clear_completed
        [{ id := "c1", command := "x", status := TaskStatus.Completed,
           model := none, created_at := 0, started_at := none,
           completed_at := some 1, error := none },
         { id := "q1", command := "y", status := TaskStatus.Queued,
           model := none, created_at := 2, started_at := none,
           completed_at := none, error := none }]).1) ∧
    ({ id := "q1", command := "y", status := TaskStatus.Queued,
       model := none, created_at := 2, started_at := none,
       completed_at := none, error := none : Task } ∈
      (clear_completed
        [{ id := "c1", command := "x", status := TaskStatus.Completed,
           model := none, created_at := 0, started_at := none,
           completed_at := some 1, error := none },
         { id := "q1", command := "y", status := TaskStatus.Queued,
           model := none, created_at := 2, started_at := none,
           completed_at := none, error := none }]).1) :=
  ⟨(clear_completed_exact
      [{ id := "c1", command := "x", status := TaskStatus.Completed,
         model := none, created_at := 0, started_at := none,
         completed_at := some 1, error := none },
       { id := "q1", command := "y", status := TaskStatus.Queued,
         model := none, created_at := 2, started_at := none,
         completed_at := none, error := none }]).2.1 _ (by decide) (by decide),
   (clear_completed_exact
      [{ id := "c1", command := "x", status := TaskStatus.Completed,
         model := none, created_at := 0, started_at := none,
         completed_at := some 1, error := none },
       { id := "q1", command := "y", status := TaskStatus.Queued,
         model := none, created_at := 2, started_at := none,
         completed_at := none, error := none }]).2.2.1 _ (by decide)
      (by decide)⟩

theorem infix_of_pref {p s : Str} (h : p <+: s) : p <:+: s := by
  obtain ⟨t, ht⟩ := h
  exact ⟨[], t, by simpa using ht⟩

theorem nil_infix_any (s : Str) : [] <:+: s :=
  ⟨[], s, by simp⟩

theorem infix_of_infix_tail {p rest : Str} {c : Char} (h : p <:+: rest) :
    p <:+: c :: rest := by
  obtain ⟨u, v, huv⟩ := h
  exact ⟨c :: u, v, by simp [huv]⟩

theorem removeAllAux_noop_of_absent (p : Str) :
    ∀ (fuel : Nat) (s : Str), ¬ (p <:+: s) → removeAllAux p fuel s = s := by
  intro fuel
  induction fuel with
  | zero => intro s _; cases s <;> rfl
  | succ n ih =>
    intro s h
    cases s with
    | nil => rfl
    | cons c rest =>
      have hp : ¬ (p <+: c :: rest) := fun hpre => h (infix_of_pref hpre)
      have hr : ¬ (p <:+: rest) := fun hi => h (infix_of_infix_tail hi)
      simp only [removeAllAux]
      rw [if_neg hp, ih rest hr]

theorem removeAll_noop_of_absent (p s : Str) (h : ¬ (p <:+: s)) :
    removeAll p s = s := by
  have hp : p.isEmpty = false := by
    cases p with
    | nil => exact absurd (nil_infix_any s) h
    | cons _ _ => rfl
  simp only [removeAll, hp, Bool.false_eq_true, if_false]
  exact removeAllAux_noop_of_absent p s.length s h

theorem foldl_removeAll_noop_of_absent (fs : List Str) :
    ∀ t : Str, (∀ f ∈ fs, ¬ (f <:+: t)) →
      fs.foldl (fun acc f => removeAll f acc) t = t := by
  induction fs with
  | nil => intro t _; rfl
  | cons f fs ih =>
    intro t h
    rw [List.foldl_cons, removeAll_noop_of_absent f t (h f (List.mem_cons_self f fs)),
      ih t (fun g hg => h g (List.mem_cons_of_mem f hg))]

/-- C3 (amended): filler-phrase removal is NOT idempotent in general —
removing an occurrence can splice the surrounding text into a new filler
occurrence (see the counterexample) — but a directive that contains no
filler phrase and whose whitespace is already normalized is left
unchanged, and cleaning is therefore idempotent on such directives. -/
theorem clean_directive_fillerfree_noop (t : Str) (i : Intent)
    (hf : ∀ f ∈ fillerWords, ¬ (f <:+: t))
    (hw : joinWords (splitWs t) = t) :
    clean_directive t i = t ∧
    clean_directive (clean_directive t i) i = clean_directive t i := by
  have h1 : clean_directive t i = t := by
    unfold clean_directive
    rw [foldl_removeAll_noop_of_absent fillerWords t hf, hw]
  exact ⟨h1, by rw [h1, h1]⟩

/-- Witness for C3 (amended) at the filler-free directive
`run the tests`. -/
theorem clean_directive_fillerfree_noop_witness :
    clean_directive "run the tests".toList Intent.Orchestrate =
      "run the tests".toList ∧
    clean_directive (clean_directive "run the tests".toList
        Intent.Orchestrate) Intent.Orchestrate =
      clean_directive "run the tests".toList Intent.Orchestrate :=
  clean_directive_fillerfree_noop "run the tests".toList Intent.Orchestrate
    (by decide) (by decide)

/-- Counterexample for C3 as frozen: cleaning `uumm` removes the inner
`um` and splices the remaining `u` and `m` into a fresh `um`, so the
first pass yields `um` and the second pass yields the empty string —
`clean(clean(t)) ≠ clean(t)`. -/
theorem clean_directive_idempotent_counterexample :
    clean_directive "uumm".toList Intent.Code = "um".toList ∧
    clean_directive (clean_directive "uumm".toList Intent.Code)
      Intent.Code = [] ∧
    clean_directive (clean_directive "uumm".toList Intent.Code)
        Intent.Code ≠
      clean_directive "uumm".toList Intent.Code := by
  refine ⟨by decide, by decide, by decide⟩

/-- C6: `process` cannot fail — the embedding is a total function, exactly
as the Rust `process` returns `Ok` on every input (it only lowercases and
pattern-matches) — and on the empty transcript it yields the Code intent
at confidence 0.60 with no entities, no context keys and an empty
directive. -/
theorem process_empty_transcript :
    process "".toList 0 =
      { intent := Intent.Code, directive := [], entities := [],
        context := { urgency := none, scope := none }, confidence := 0.60,
        created_at := 0 } := rfl

theorem containsSub_iff (s p : Str) : containsSub s p = true ↔ p <:+: s := by
  simp [containsSub]

theorem contains_any_iff (s : Str) (ps : List Str) :
    contains_any s ps = true ↔ ∃ p ∈ ps, p <:+: s := by
  simp [contains_any, List.any_eq_true, containsSub_iff]

theorem orchestrate_lower_fixed :
    ∀ p ∈ orchestrateKeywords, toLowerStr p = p := by decide

theorem infix_map_lower {p t : Str} (h : p <:+: t) :
    toLowerStr p <:+: toLowerStr t := by
  obtain ⟨u, v, huv⟩ := h
  exact ⟨toLowerStr u, toLowerStr v, by simp [toLowerStr, ← huv]⟩

/-- C7: intent classification is a first-match-wins search of the ordered
keyword sets over the lowercased, uncleaned transcript (substring match);
any hit scores confidence 0.85, no hit defaults to Code at 0.60. In
particular a transcript containing an Orchestrate keyword always
classifies as Orchestrate at 0.85, whatever else it contains. -/
theorem detect_intent_priority (t : Str) (now : Nat) :
    ((∃ p ∈ orchestrateKeywords, p <:+: t) →
        (process t now).intent = Intent.Orchestrate ∧
        (process t now).confidence = 0.85) ∧
    (contains_any (toLowerStr t) orchestrateKeywords = true →
        (process t now).intent = Intent.Orchestrate ∧
        (process t now).confidence = 0.85) ∧
    (contains_any (toLowerStr t) orchestrateKeywords = false →
        contains_any (toLowerStr t) researchKeywords = true →
        (process t now).intent = Intent.Research ∧
        (process t now).confidence = 0.85) ∧
    (contains_any (toLowerStr t) orchestrateKeywords = false →
        contains_any (toLowerStr t) researchKeywords = false →
        contains_any (toLowerStr t) testKeywords = true →
        (process t now).intent = Intent.Test ∧
        (process t now).confidence = 0.85) ∧
    (contains_any (toLowerStr t) orchestrateKeywords = false →
        contains_any (toLowerStr t) researchKeywords = false →
        contains_any (toLowerStr t) testKeywords = false →
        contains_any (toLowerStr t) codeKeywords = true →
        (process t now).intent = Intent.Code ∧
        (process t now).confidence = 0.85) ∧
    (contains_any (toLowerStr t) orchestrateKeywords = false →
        contains_any (toLowerStr t) researchKeywords = false →
        contains_any (toLowerStr t) testKeywords = false →
        contains_any (toLowerStr t) codeKeywords = false →
        (process t now).intent = Intent.Code ∧
        (process t now).confidence = 0.60) := by
  have horch : contains_any (toLowerStr t) orchestrateKeywords = true →
      (process t now).intent = Intent.Orchestrate ∧
      (process t now).confidence = 0.85 := by
    intro h1
    constructor <;> simp [process, detect_intent, h1]
  refine ⟨?_, horch, ?_, ?_, ?_, ?_⟩
  · rintro ⟨p, hp, hinf⟩
    apply horch
    apply (contains_any_iff _ _).mpr
    refine ⟨p, hp, ?_⟩
    have := infix_map_lower hinf
    rwa [orchestrate_lower_fixed p hp] at this
  · intro h1 h2
    constructor <;> simp [process, detect_intent, h1, h2]
  · intro h1 h2 h3
    constructor <;> simp [process, detect_intent, h1, h2, h3]
  · intro h1 h2 h3 h4
    constructor <;> simp [process, detect_intent, h1, h2, h3, h4]
  · intro h1 h2 h3 h4
    constructor <;> simp [process, detect_intent, h1, h2, h3, h4]

/-- Witness for C7 on the transcript `run it`, which contains the
Orchestrate keyword `run`. -/
theorem detect_intent_priority_witness :
    (process "run it".toList 0).intent = Intent.Orchestrate ∧
    (process "run it".toList 0).confidence = 0.85 :=
  (detect_intent_priority "run it".toList 0).2.1 (by decide)

theorem toNat_ofNat_of_valid (n : Nat) (h : n.isValidChar) :
    (Char.ofNat n).toNat = n := by
  unfold Char.ofNat
  rw [dif_pos h]
  rfl

theorem toLower_not_upper (c : Char) : isAsciiUpper (Char.toLower c) = false := by
  simp only [isAsciiUpper, decide_eq_false_iff_not]
  by_cases h : 65 ≤ c.toNat ∧ c.toNat ≤ 90
  · have hv : (c.toNat + 32).isValidChar := Or.inl (by omega)
    have h2 := toNat_ofNat_of_valid (c.toNat + 32) hv
    simp only [Char.toLower]
    rw [if_pos ⟨h.1, h.2⟩, h2]
    omega
  · simp only [Char.toLower]
    rw [if_neg h]
    omega

theorem splitWsAux_chars : ∀ (s cur w : Str), w ∈ splitWsAux s cur →
    ∀ c ∈ w, c ∈ s ∨ c ∈ cur := by
  intro s
  induction s with
  | nil =>
    intro cur w hw c hc
    unfold splitWsAux at hw
    by_cases hcur : cur.isEmpty
    · rw [if_pos hcur] at hw
      exact absurd hw (List.not_mem_nil w)
    · rw [if_neg hcur] at hw
      rcases List.mem_cons.mp hw with rfl | habs
      · exact Or.inr (List.mem_reverse.mp hc)
      · exact absurd habs (List.not_mem_nil w)
  | cons a rest ih =>
    intro cur w hw c hc
    unfold splitWsAux at hw
    by_cases hws : a.isWhitespace
    · rw [if_pos hws] at hw
      by_cases hcur : cur.isEmpty
      · rw [if_pos hcur] at hw
        rcases ih [] w hw c hc with h | h
        · exact Or.inl (List.mem_cons_of_mem a h)
        · exact absurd h (List.not_mem_nil c)
      · rw [if_neg hcur] at hw
        rcases List.mem_cons.mp hw with rfl | hw2
        · exact Or.inr (List.mem_reverse.mp hc)
        · rcases ih [] w hw2 c hc with h | h
          · exact Or.inl (List.mem_cons_of_mem a h)
          · exact absurd h (List.not_mem_nil c)
    · rw [if_neg hws] at hw
      rcases ih (a :: cur) w hw c hc with h | h
      · exact Or.inl (List.mem_cons_of_mem a h)
      · rcases List.mem_cons.mp h with rfl | h2
        · exact Or.inl (List.mem_cons_self c rest)
        · exact Or.inr h2

theorem splitWs_chars {s w : Str} (hw : w ∈ splitWs s) {c : Char}
    (hc : c ∈ w) : c ∈ s := by
  rcases splitWsAux_chars s [] w hw c hc with h | h
  · exact h
  · exact absurd h (List.not_mem_nil c)

theorem codeEntitiesAux_mem : ∀ (ws : List Str) (e : Str),
    e ∈ codeEntitiesAux ws → e ∈ ws := by
  intro ws
  induction ws with
  | nil => intro e he; exact absurd he (List.not_mem_nil e)
  | cons w rest ih =>
    intro e he
    unfold codeEntitiesAux at he
    by_cases hw : w = "class".toList ∨ w = "function".toList ∨
        w = "method".toList
    · rw [if_pos hw] at he
      cases rest with
      | nil => exact List.mem_cons_of_mem w (ih e he)
      | cons next rest2 =>
        dsimp only at he
        by_cases hnext : next = "for".toList
        · rw [if_pos hnext] at he
          cases rest2 with
          | nil => exact List.mem_cons_of_mem w (ih e he)
          | cons name rest3 =>
            rcases List.mem_cons.mp he with rfl | he2
            · exact List.mem_cons_of_mem w
                (List.mem_cons_of_mem next (List.mem_cons_self e rest3))
            · exact List.mem_cons_of_mem w (ih e he2)
        · rw [if_neg hnext] at he
          rcases List.mem_cons.mp he with rfl | he2
          · exact List.mem_cons_of_mem w (List.mem_cons_self e rest2)
          · exact List.mem_cons_of_mem w (ih e he2)
    · rw [if_neg hw] at he
      exact List.mem_cons_of_mem w (ih e he)

theorem extract_entities_chars (s : Str) (i : Intent) (e : Str)
    (he : e ∈ extract_entities s i) (c : Char) (hc : c ∈ e) :
    c ∈ s ∨ c ∈ "unit".toList ∨ c ∈ "integration".toList := by
  unfold extract_entities at he
  rcases List.mem_append.mp he with hft | hcode
  · rcases List.mem_append.mp hft with hfile | htest
    · left
      split at hfile
      · have := List.mem_filter.mp hfile
        exact splitWs_chars this.1 hc
      · exact absurd hfile (List.not_mem_nil e)
    · right
      split at htest
      · rcases List.mem_append.mp htest with hu | hi2
        · split at hu
          · rcases List.mem_cons.mp hu with rfl | habs
            · exact Or.inl hc
            · exact absurd habs (List.not_mem_nil e)
          · exact absurd hu (List.not_mem_nil e)
        · split at hi2
          · rcases List.mem_cons.mp hi2 with rfl | habs
            · exact Or.inr hc
            · exact absurd habs (List.not_mem_nil e)
          · exact absurd hi2 (List.not_mem_nil e)
      · exact absurd htest (List.not_mem_nil e)
  · left
    split at hcode
    · exact splitWs_chars (codeEntitiesAux_mem (splitWs s) e hcode) hc
    · exact absurd hcode (List.not_mem_nil e)

theorem removeAllAux_chars (p : Str) : ∀ (fuel : Nat) (s : Str) (c : Char),
    c ∈ removeAllAux p fuel s → c ∈ s := by
  intro fuel
  induction fuel with
  | zero =>
    intro s c h
    cases s with
    | nil => exact absurd h (List.not_mem_nil c)
    | cons a rest => exact h
  | succ n ih =>
    intro s c h
    cases s with
    | nil => exact absurd h (List.not_mem_nil c)
    | cons a rest =>
      simp only [removeAllAux] at h
      by_cases hp : p <+: a :: rest
      · rw [if_pos hp] at h
        exact List.mem_of_mem_drop (ih _ c h)
      · rw [if_neg hp] at h
        rcases List.mem_cons.mp h with rfl | h2
        · exact List.mem_cons_self c rest
        · exact List.mem_cons_of_mem a (ih rest c h2)

theorem removeAll_chars {p s : Str} {c : Char} (h : c ∈ removeAll p s) :
    c ∈ s := by
  unfold removeAll at h
  by_cases hp : p.isEmpty
  · rwa [if_pos hp] at h
  · rw [if_neg hp] at h
    exact removeAllAux_chars p s.length s c h

theorem foldl_removeAll_chars (fs : List Str) :
    ∀ (t : Str) (c : Char),
      c ∈ fs.foldl (fun acc f => removeAll f acc) t → c ∈ t := by
  induction fs with
  | nil => intro t c h; exact h
  | cons f fs ih =>
    intro t c h
    rw [List.foldl_cons] at h
    exact removeAll_chars (ih (removeAll f t) c h)

theorem joinWords_chars : ∀ (ws : List Str) (c : Char),
    c ∈ joinWords ws → c = ' ' ∨ ∃ w ∈ ws, c ∈ w := by
  intro ws
  induction ws with
  | nil => intro c h; exact absurd h (List.not_mem_nil c)
  | cons w rest ih =>
    intro c h
    cases rest with
    | nil => exact Or.inr ⟨w, List.mem_cons_self w [], h⟩
    | cons v vs =>
      have hj : joinWords (w :: v :: vs) = w ++ ' ' :: joinWords (v :: vs) :=
        rfl
      rw [hj] at h
      rcases List.mem_append.mp h with hw | hs
      · exact Or.inr ⟨w, List.mem_cons_self w _, hw⟩
      · rcases List.mem_cons.mp hs with rfl | h2
        · exact Or.inl rfl
        · rcases ih c h2 with h3 | ⟨w2, hw2, hcw2⟩
          · exact Or.inl h3
          · exact Or.inr ⟨w2, List.mem_cons_of_mem w hw2, hcw2⟩

theorem unit_chars_not_upper : ∀ c ∈ "unit".toList, isAsciiUpper c = false := by
  decide

theorem integration_chars_not_upper :
    ∀ c ∈ "integration".toList, isAsciiUpper c = false := by
  decide

/-- C10: every entity string of `process(transcript)` comes from the
lowercased copy (or is one of the lowercase literals `unit` /
`integration`), so entities contain no ASCII uppercase letter even when
the original token did; the directive, by contrast, is built from the
original transcript — each of its characters is a character of the
original transcript or a separator space. -/
theorem process_entities_lowercased (t : Str) (now : Nat) :
    (∀ e ∈ (process t now).entities, ∀ c ∈ e, isAsciiUpper c = false) ∧
    (∀ c ∈ (process t now).directive, c ∈ t ∨ c = ' ') := by
  have hent : (process t now).entities =
      extract_entities (toLowerStr t) (detect_intent (toLowerStr t)).1 := by
    simp [process]
  have hdir : (process t now).directive =
      clean_directive t (detect_intent (toLowerStr t)).1 := by
    simp [process]
  constructor
  · intro e he c hc
    rw [hent] at he
    rcases extract_entities_chars _ _ e he c hc with h | h | h
    · obtain ⟨a, _, rfl⟩ := List.mem_map.mp h
      exact toLower_not_upper a
    · exact unit_chars_not_upper c h
    · exact integration_chars_not_upper c h
  · intro c hc
    rw [hdir] at hc
    unfold clean_directive at hc
    rcases joinWords_chars _ c hc with h | ⟨w, hw, hcw⟩
    · exact Or.inr h
    · exact Or.inl (foldl_removeAll_chars fillerWords t c
        (splitWs_chars hw hcw))

/-- Witness for C10 on `Run Main.rs`: the extracted entity is the
lowercased `main.rs` while the directive keeps the original `R`. -/
theorem process_entities_lowercased_witness :
    isAsciiUpper 'a' = false ∧ ('R' ∈ "Run Main.rs".toList ∨ 'R' = ' ') :=
  ⟨(process_entities_lowercased "Run Main.rs".toList 0).1 "main.rs".toList
      (by decide) 'a' (by decide),
   (process_entities_lowercased "Run Main.rs".toList 0).2 'R' (by decide)⟩

end Faster

